import Mathlib

/-!
Verification of the connection sniffer of `caddy-trojan`
(`src/modules/listener/listener.go`).

The per-connection goroutine spawned by `Listener.loop` is embedded as a
pure function over a trace of read results; `Listener.Accept` and
`Listener.Close` are embedded over an explicit listener state.  The
credential ledger (`app.Upstream`) is abstracted by its `Validate`
function and by recording the arguments of `Consume`; the handshake relay
(`trojan.HandleWithDialer`) is abstracted by its returned
`(read, written, error)` triple.
-/

namespace CaddyTrojan

/-- `trojan.HeaderLen`.  Modelled from the spec: the `trojan` package is
outside the sources in scope; the spec fixes the credential key width
`L = 56` (hex digest of a 224-bit hash). -/
def HeaderLen : Nat := 56

/-- The error classes the sniffer distinguishes: `io.EOF`
(via `errors.Is(err, io.EOF)`) versus any other error. -/
inductive Err
  | eof
  | other
deriving DecidableEq

/-- Outcome of a single `c.Read(b[n:n+1])` call: `byte` is the byte the
read wrote into the buffer when it returned one byte (`nr = 1`), `none`
when it returned zero bytes; `err` is the returned error, if any. -/
structure ReadResult where
  byte : Option Nat
  err  : Option Err
deriving DecidableEq

/-- The result of the `i`-th `Read` call on a connection modelled as a
finite trace of read results; an exhausted trace reads as end-of-stream. -/
def readAt (s : List ReadResult) (i : Nat) : ReadResult :=
  s.getD i ⟨none, some Err.eof⟩

/-- The bytes actually delivered by a trace of reads, in order. -/
def streamBytes (s : List ReadResult) : List Nat :=
  s.filterMap (·.byte)

/-- Externally visible effects of one connection's sniffing goroutine. -/
structure Effects where
  /-- the byte slice handed to `rawconn.RewindConn` and sent on `l.conns`,
  when the goroutine enqueued the connection for the fallback path -/
  enqueued   : Option (List Nat)
  /-- whether the goroutine called `c.Close()` -/
  connClosed : Bool
  /-- the key on which the relay path was entered, if it was -/
  relayedKey : Option (List Nat)
  /-- the arguments `(key, nr, nw)` of the `up.Consume` call, if any -/
  consumed   : Option (List Nat × Int × Int)
  /-- the argument of the `up.Validate` call, if it was reached -/
  lookedUp   : Option (List Nat)
  /-- the read results not consumed by the header scan -/
  rest       : List ReadResult
deriving DecidableEq

/-- The code after the header-read loop of the goroutine in
`Listener.loop`: `up.Validate(b[:HeaderLen])`; on failure enqueue the
rewound connection (unless the close signal fired, then close); on
success relay, log a relay error if any, and always
`up.Consume(b[:HeaderLen], nr, nw)` with the connection closed by the
deferred `c.Close()`. -/
def postLoop (c : Bool) (v : List Nat → Bool) (rl : Int × Int × Option Err)
    (b : List Nat) (s : List ReadResult) : Effects :=
  if v (b.take HeaderLen) then
    { enqueued := none, connClosed := true,
      relayedKey := some (b.take HeaderLen),
      consumed := some (b.take HeaderLen, rl.1, rl.2.1),
      lookedUp := some (b.take HeaderLen), rest := s }
  else if c then
    { enqueued := none, connClosed := true, relayedKey := none,
      consumed := none, lookedUp := some (b.take HeaderLen), rest := s }
  else
    { enqueued := some b, connClosed := false, relayedKey := none,
      consumed := none, lookedUp := some (b.take HeaderLen), rest := s }

/-- The header-read loop of the goroutine in `Listener.loop`, with
`fuel = HeaderLen + 2 - n` remaining iterations.  Each iteration performs
one `c.Read(b[n:n+1])`: a returned byte is written at position `n`; a
non-`EOF` error enqueues `RewindConn(c, b[:n+1])` unconditionally; `EOF`
closes the connection; `nr == 0` falls to `continue`, which still runs
the loop's `n += 1` post-statement; a line feed at `n < HeaderLen+1`
enqueues `RewindConn(c, b[:n+1])` unless the close signal `c` fired, in
which case the connection is closed instead. -/
def sniffGo (c : Bool) (v : List Nat → Bool) (rl : Int × Int × Option Err) :
    Nat → Nat → List Nat → List ReadResult → Effects
  | 0, _n, b, s => postLoop c v rl b s
  | fuel+1, n, b, s =>
    let r := readAt s 0
    let b' := match r.byte with
      | some val => b.set n val
      | none => b
    match r.err, r.byte with
    | some Err.eof, _ =>
        { enqueued := none, connClosed := true, relayedKey := none,
          consumed := none, lookedUp := none, rest := s.tail }
    | some Err.other, _ =>
        { enqueued := some (b'.take (n+1)), connClosed := false,
          relayedKey := none, consumed := none, lookedUp := none,
          rest := s.tail }
    | none, none => sniffGo c v rl fuel (n+1) b' s.tail
    | none, some val =>
      if val = 0x0a ∧ n < HeaderLen + 1 then
        if c then
          { enqueued := none, connClosed := true, relayedKey := none,
            consumed := none, lookedUp := none, rest := s.tail }
        else
          { enqueued := some (b'.take (n+1)), connClosed := false,
            relayedKey := none, consumed := none, lookedUp := none,
            rest := s.tail }
      else sniffGo c v rl fuel (n+1) b' s.tail

/-- One connection's goroutine from `Listener.loop`:
`b := make([]byte, HeaderLen+2)` (zero-filled) and the loop from `n = 0`.
`c` is whether the close signal has fired, `v` is `up.Validate`, `rl` the
triple `trojan.HandleWithDialer` returns if the relay path is reached,
`s` the connection's read trace. -/
def handleConn (c : Bool) (v : List Nat → Bool) (rl : Int × Int × Option Err)
    (s : List ReadResult) : Effects :=
  sniffGo c v rl (HeaderLen + 2) 0 (List.replicate (HeaderLen + 2) 0) s

/-- Modelled from the spec: `rawconn.RewindConn` (package `pkgs/rawconn`,
outside the sources in scope) replays the stored byte slice before
resuming reads from the underlying connection, so the fallback consumer
observes the enqueued bytes followed by the bytes still on the wire. -/
def fallbackObserves (replayed : List Nat) (rest : List ReadResult) : List Nat :=
  replayed ++ streamBytes rest

/-- Proof device: the header buffer after a run of read results has been
processed starting at position `n` — a returned byte is written at the
current position, a zero-byte read leaves the position untouched; either
way the position advances. -/
def fillBuf (b : List Nat) (n : Nat) : List ReadResult → List Nat
  | [] => b
  | r :: rs =>
    fillBuf (match r.byte with | some val => b.set n val | none => b) (n+1) rs

/-- State of the wrapping `Listener`: its one-shot close signal, the
pending-connection queue `l.conns` (connections as opaque ids), and the
state of the wrapped underlying `net.Listener`. -/
structure ListenerState where
  closed : Bool
  queue : List Nat
  underlyingClosed : Bool
deriving DecidableEq

/-- `Listener.Close`: if `l.closed` is already closed, do nothing;
otherwise `close(l.closed)`; return `nil` either way.  The wrapped
`net.Listener` is never touched. -/
def closeL (st : ListenerState) : ListenerState × Option Err :=
  if st.closed then (st, none)
  else ({ st with closed := true }, none)

/-- Result of a `Listener.Accept` call: still blocked (neither select
case ready), the `os.ErrClosed` error, or a connection taken off the
queue. -/
inductive AcceptOut
  | blocked
  | closedErr
  | gotConn (c : Nat) (q : List Nat)
deriving DecidableEq

/-- `Listener.Accept`: `select` over the fired close signal and a receive
on `l.conns`.  When both cases are ready Go chooses one uniformly at
random; the oracle `pick` stands for that choice (`true` = the close
branch). -/
def acceptL (closed : Bool) (queue : List Nat) (pick : Bool) : AcceptOut :=
  match queue with
  | [] => if closed then .closedErr else .blocked
  | c :: q =>
    if closed then (if pick then .closedErr else .gotConn c q)
    else .gotConn c q

/-! ## Basic lemmas about the embedding -/

theorem readAt_nil (i : Nat) : readAt [] i = ⟨none, some Err.eof⟩ := by
  simp [readAt]

theorem readAt_cons_zero (r : ReadResult) (s : List ReadResult) :
    readAt (r :: s) 0 = r := rfl

theorem readAt_cons_succ (r : ReadResult) (s : List ReadResult) (i : Nat) :
    readAt (r :: s) (i+1) = readAt s i := rfl

theorem readAt_err_none_length {s : List ReadResult} {m : Nat}
    (h : ∀ i, i < m → (readAt s i).err = none) : m ≤ s.length := by
  by_contra hlt
  push_neg at hlt
  have hd : readAt s s.length = ⟨none, some Err.eof⟩ := by
    simp [readAt, List.getD_eq_getElem?_getD, List.getElem?_eq_none (Nat.le_refl _)]
  have := h s.length hlt
  rw [hd] at this
  exact Option.noConfusion this

theorem take_set_succ (b : List Nat) (n : Nat) (v : Nat) (h : n < b.length) :
    (b.set n v).take (n+1) = b.take n ++ [v] := by
  rw [List.set_eq_take_append_cons_drop, if_pos h]
  rw [List.take_append_eq_append_take, List.take_take]
  have h1 : (b.take n).length = n := List.length_take_of_le (Nat.le_of_lt h)
  rw [h1]
  simp [Nat.min_eq_right (Nat.le_succ n)]

theorem take_succ_getD (b : List Nat) (n : Nat) (h : n < b.length) :
    b.take (n+1) = b.take n ++ [b.getD n 0] := by
  rw [List.take_succ, List.getElem?_eq_getElem h]
  simp [List.getD_eq_getElem?_getD, List.getElem?_eq_getElem h]

theorem getD_set_ne (b : List Nat) (n m v d : Nat) (h : n ≠ m) :
    (b.set n v).getD m d = b.getD m d := by
  simp [List.getD_eq_getElem?_getD, List.getElem?_set_ne h]

theorem getD_take_lt {α : Type} (b : List α) (m j : Nat) (d : α) (h : j < m) :
    (b.take m).getD j d = b.getD j d := by
  simp [List.getD_eq_getElem?_getD, List.getElem?_take_of_lt h]

theorem getD_eq_getElem {α : Type} (l : List α) (i : Nat) (d : α)
    (h : i < l.length) : l.getD i d = l[i] := by
  simp [List.getD_eq_getElem?_getD, List.getElem?_eq_getElem h]

theorem readAt_eq_getElem (s : List ReadResult) (i : Nat) (h : i < s.length) :
    readAt s i = s[i] :=
  getD_eq_getElem s i ⟨none, some Err.eof⟩ h

theorem readAt_mem (s : List ReadResult) (i : Nat) (h : i < s.length) :
    readAt s i ∈ s := by
  rw [readAt_eq_getElem s i h]
  exact List.getElem_mem h

theorem readAt_byte_some_lt {s : List ReadResult} {i : Nat} {val : Nat}
    (h : (readAt s i).byte = some val) : i < s.length := by
  by_contra hge
  push_neg at hge
  have hdef : readAt s i = ⟨none, some Err.eof⟩ := by
    simp [readAt, List.getD_eq_getElem?_getD, List.getElem?_eq_none hge]
  rw [hdef] at h
  exact Option.noConfusion h

theorem readAt_drop (s : List ReadResult) (n i : Nat) :
    readAt (s.drop n) i = readAt s (n + i) := by
  simp [readAt, List.getD_eq_getElem?_getD, List.getElem?_drop]

/-! ## One-step unfolding of the header-read loop -/

theorem sniffGo_eof {s : List ReadResult} {ob : Option Nat}
    (c : Bool) (v : List Nat → Bool) (rl : Int × Int × Option Err)
    (fuel n : Nat) (b : List Nat) (h : readAt s 0 = ⟨ob, some Err.eof⟩) :
    sniffGo c v rl (fuel+1) n b s =
      { enqueued := none, connClosed := true, relayedKey := none,
        consumed := none, lookedUp := none, rest := s.tail } := by
  cases ob <;> simp [sniffGo, h]

theorem sniffGo_err {s : List ReadResult}
    (c : Bool) (v : List Nat → Bool) (rl : Int × Int × Option Err)
    (fuel n : Nat) (b : List Nat) (h : readAt s 0 = ⟨none, some Err.other⟩) :
    sniffGo c v rl (fuel+1) n b s =
      { enqueued := some (b.take (n+1)), connClosed := false, relayedKey := none,
        consumed := none, lookedUp := none, rest := s.tail } := by
  simp [sniffGo, h]

theorem sniffGo_zero {s : List ReadResult}
    (c : Bool) (v : List Nat → Bool) (rl : Int × Int × Option Err)
    (fuel n : Nat) (b : List Nat) (h : readAt s 0 = ⟨none, none⟩) :
    sniffGo c v rl (fuel+1) n b s = sniffGo c v rl fuel (n+1) b s.tail := by
  simp [sniffGo, h]

theorem sniffGo_byte {s : List ReadResult} {val : Nat}
    (c : Bool) (v : List Nat → Bool) (rl : Int × Int × Option Err)
    (fuel n : Nat) (b : List Nat) (h : readAt s 0 = ⟨some val, none⟩)
    (hnl : ¬(val = 0x0a ∧ n < HeaderLen + 1)) :
    sniffGo c v rl (fuel+1) n b s =
      sniffGo c v rl fuel (n+1) (b.set n val) s.tail := by
  simp [sniffGo, h, hnl]

theorem sniffGo_lf {s : List ReadResult}
    (c : Bool) (v : List Nat → Bool) (rl : Int × Int × Option Err)
    (fuel n : Nat) (b : List Nat) (h : readAt s 0 = ⟨some 0x0a, none⟩)
    (hn : n < HeaderLen + 1) :
    sniffGo c v rl (fuel+1) n b s =
      if c then
        { enqueued := none, connClosed := true, relayedKey := none,
          consumed := none, lookedUp := none, rest := s.tail }
      else
        { enqueued := some ((b.set n 0x0a).take (n+1)), connClosed := false,
          relayedKey := none, consumed := none, lookedUp := none,
          rest := s.tail } := by
  simp [sniffGo, h, hn]

/-! ## Walking the loop across uneventful reads -/

theorem sniffGo_walk (c : Bool) (v : List Nat → Bool) (rl : Int × Int × Option Err) :
    ∀ (k fuel n : Nat) (b : List Nat) (s : List ReadResult), k ≤ fuel →
      (∀ i, i < k → (readAt s i).err = none ∧
        ¬((readAt s i).byte = some 0x0a ∧ n + i < HeaderLen + 1)) →
      sniffGo c v rl fuel n b s =
        sniffGo c v rl (fuel - k) (n + k) (fillBuf b n (s.take k)) (s.drop k)
  | 0, fuel, n, b, s, _, _ => by simp [fillBuf]
  | k+1, fuel, n, b, s, hk, h => by
    obtain ⟨fuel, rfl⟩ : ∃ f, fuel = f + 1 :=
      ⟨fuel - 1, by omega⟩
    obtain ⟨h0err, h0lf⟩ := h 0 (Nat.succ_pos k)
    cases s with
    | nil =>
      rw [readAt_nil] at h0err
      exact Option.noConfusion h0err
    | cons r s =>
      rw [readAt_cons_zero] at h0err h0lf
      have hshift : ∀ i, i < k → (readAt s i).err = none ∧
          ¬((readAt s i).byte = some 0x0a ∧ (n+1) + i < HeaderLen + 1) := by
        intro i hi
        have := h (i+1) (by omega)
        rw [readAt_cons_succ] at this
        exact ⟨this.1, fun hc => this.2 ⟨hc.1, by omega⟩⟩
      cases hb : r.byte with
      | none =>
        have hr0 : readAt (r :: s) 0 = ⟨none, none⟩ := by
          rw [readAt_cons_zero]; cases r; simp_all
        rw [sniffGo_zero c v rl fuel n b hr0]
        simp only [List.tail_cons]
        rw [sniffGo_walk c v rl k fuel (n+1) b s (by omega) hshift]
        simp only [List.take_succ_cons, List.drop_succ_cons, fillBuf, hb]
        rw [(by omega : fuel + 1 - (k + 1) = fuel - k),
            (by omega : n + (k + 1) = n + 1 + k)]
      | some val =>
        have hr : readAt (r :: s) 0 = ⟨some val, none⟩ := by
          rw [readAt_cons_zero]; cases r; simp_all
        have hnl : ¬(val = 0x0a ∧ n < HeaderLen + 1) := by
          intro hc
          exact h0lf (by simp [hb, hc.1, Nat.add_zero, hc.2])
        rw [sniffGo_byte c v rl fuel n b hr hnl]
        simp only [List.tail_cons]
        rw [sniffGo_walk c v rl k fuel (n+1) (b.set n val) s (by omega) hshift]
        simp only [List.take_succ_cons, List.drop_succ_cons, fillBuf, hb]
        rw [(by omega : fuel + 1 - (k + 1) = fuel - k),
            (by omega : n + (k + 1) = n + 1 + k)]

/-! ## The buffer produced by uneventful reads -/

theorem fillBuf_length : ∀ (rs : List ReadResult) (b : List Nat) (n : Nat),
    (fillBuf b n rs).length = b.length
  | [], _, _ => rfl
  | r :: rs, b, n => by
    cases hb : r.byte <;> simp [fillBuf, hb, fillBuf_length rs]

theorem fillBuf_getD_lt : ∀ (rs : List ReadResult) (b : List Nat) (n m d : Nat),
    m < n → (fillBuf b n rs).getD m d = b.getD m d
  | [], _, _, _, _, _ => rfl
  | r :: rs, b, n, m, d, h => by
    cases hb : r.byte with
    | none =>
      simp only [fillBuf, hb]
      exact fillBuf_getD_lt rs b (n+1) m d (by omega)
    | some val =>
      simp only [fillBuf, hb]
      rw [fillBuf_getD_lt rs _ (n+1) m d (by omega)]
      exact getD_set_ne b n m val d (by omega)

theorem fillBuf_getD_ge : ∀ (rs : List ReadResult) (b : List Nat) (n m d : Nat),
    n + rs.length ≤ m → (fillBuf b n rs).getD m d = b.getD m d
  | [], _, _, _, _, _ => rfl
  | r :: rs, b, n, m, d, h => by
    have hlt : n < m := by simp at h; omega
    cases hb : r.byte with
    | none =>
      simp only [fillBuf, hb]
      exact fillBuf_getD_ge rs b (n+1) m d (by simp at h ⊢; omega)
    | some val =>
      simp only [fillBuf, hb]
      rw [fillBuf_getD_ge rs _ (n+1) m d (by simp at h ⊢; omega)]
      exact getD_set_ne b n m val d (by omega)

theorem fillBuf_getD : ∀ (rs : List ReadResult) (b : List Nat) (n j d : Nat),
    j < rs.length → n + rs.length ≤ b.length →
    (fillBuf b n rs).getD (n+j) d =
      ((rs.getD j ⟨none, none⟩).byte).getD (b.getD (n+j) d)
  | [], _, _, j, _, hj, _ => absurd hj (by simp)
  | r :: rs, b, n, 0, d, _, hb => by
    have hn : n < b.length := by simp at hb; omega
    cases hr : r.byte with
    | none =>
      simp only [fillBuf, hr, Nat.add_zero]
      rw [fillBuf_getD_lt rs b (n+1) n d (Nat.lt_succ_self n)]
      simp [hr]
    | some val =>
      simp only [fillBuf, hr, Nat.add_zero]
      rw [fillBuf_getD_lt rs _ (n+1) n d (Nat.lt_succ_self n)]
      simp only [List.getD_cons_zero, hr, Option.getD_some]
      simp [List.getD_eq_getElem?_getD, List.getElem?_set_self hn]
  | r :: rs, b, n, j+1, d, hj, hb => by
    have harith : n + (j + 1) = (n + 1) + j := by omega
    cases hr : r.byte with
    | none =>
      simp only [fillBuf, hr, List.getD_cons_succ, harith]
      rw [fillBuf_getD rs b (n+1) j d (by simp at hj; omega) (by simp at hb; omega)]
    | some val =>
      simp only [fillBuf, hr, List.getD_cons_succ, harith]
      rw [fillBuf_getD rs _ (n+1) j d (by simp at hj; omega)
            (by simp at hb; simp; omega)]
      rw [getD_set_ne b n ((n+1)+j) val d (by omega)]

theorem fillBuf_plain : ∀ (rs : List ReadResult) (b : List Nat) (n : Nat),
    (∀ r ∈ rs, r.byte.isSome) → n + rs.length ≤ b.length →
    fillBuf b n rs = b.take n ++ rs.filterMap (·.byte) ++ b.drop (n + rs.length)
  | [], b, n, _, _ => by simp [fillBuf]
  | r :: rs, b, n, hp, hb => by
    obtain ⟨val, hval⟩ := Option.isSome_iff_exists.mp (hp r (by simp))
    have hn : n < b.length := by simp at hb; omega
    simp only [fillBuf, hval]
    rw [fillBuf_plain rs _ (n+1) (fun r hr => hp r (by simp [hr]))
          (by simp at hb ⊢; omega)]
    rw [take_set_succ b n val hn]
    rw [List.drop_set_of_lt val b (by omega)]
    rw [List.filterMap_cons_some hval]
    simp only [List.length_cons]
    rw [show n + (rs.length + 1) = (n + 1) + rs.length by omega]
    simp

/-! ## Plain streams (every read delivers exactly one byte, no error) -/

theorem plain_take_length : ∀ (k : Nat) (s : List ReadResult),
    (∀ i, i < k → (readAt s i).byte.isSome) →
    (streamBytes (s.take k)).length = k
  | 0, _, _ => rfl
  | k+1, s, h => by
    cases s with
    | nil =>
      have := h 0 (Nat.succ_pos k)
      rw [readAt_nil] at this
      simp at this
    | cons r s =>
      obtain ⟨val, hval⟩ := Option.isSome_iff_exists.mp
        (by have := h 0 (Nat.succ_pos k); rwa [readAt_cons_zero] at this)
      have htail : ∀ i, i < k → (readAt s i).byte.isSome := by
        intro i hi
        have := h (i+1) (by omega)
        rwa [readAt_cons_succ] at this
      simp only [List.take_succ_cons, streamBytes, List.filterMap_cons_some hval,
        List.length_cons]
      exact congrArg Nat.succ (plain_take_length k s htail)

theorem plain_streamBytes_take : ∀ (m : Nat) (M : Nat) (s : List ReadResult),
    (∀ i, i < m → (readAt s i).byte.isSome) → m ≤ M →
    (streamBytes (s.take M)).take m = streamBytes (s.take m)
  | 0, _, _, _, _ => by simp [streamBytes]
  | m+1, M, s, h, hm => by
    obtain ⟨M, rfl⟩ : ∃ M₀, M = M₀ + 1 := ⟨M - 1, by omega⟩
    cases s with
    | nil =>
      have := h 0 (Nat.succ_pos m)
      rw [readAt_nil] at this
      simp at this
    | cons r s =>
      obtain ⟨val, hval⟩ := Option.isSome_iff_exists.mp
        (by have := h 0 (Nat.succ_pos m); rwa [readAt_cons_zero] at this)
      have htail : ∀ i, i < m → (readAt s i).byte.isSome := by
        intro i hi
        have := h (i+1) (by omega)
        rwa [readAt_cons_succ] at this
      simp only [List.take_succ_cons, streamBytes, List.filterMap_cons_some hval,
        List.take_succ_cons]
      exact congrArg (val :: ·) (plain_streamBytes_take m M s htail (by omega))

/-! ## Route characterizations -/

/-- Whenever the goroutine enqueues a rewound connection, the replayed
bytes followed by the unread remainder reconstruct the whole stream —
provided every read of the trace delivered exactly one byte without
error. -/
theorem enqueue_replay_exact (c : Bool) (v : List Nat → Bool)
    (rl : Int × Int × Option Err) :
    ∀ (fuel n : Nat) (b : List Nat) (s : List ReadResult) (pre : List Nat),
      fuel + n = HeaderLen + 2 → b.length = HeaderLen + 2 →
      (∀ r ∈ s, r.err = none ∧ r.byte.isSome) →
      (sniffGo c v rl fuel n b s).enqueued = some pre →
      pre ++ streamBytes (sniffGo c v rl fuel n b s).rest = b.take n ++ streamBytes s
  | 0, n, b, s, pre, hfn, hb, _, he => by
    have hn : b.take n = b := List.take_of_length_le (by omega)
    cases hv : v (b.take HeaderLen) with
    | true => simp [sniffGo, postLoop, hv] at he
    | false =>
      cases c with
      | true => simp [sniffGo, postLoop, hv] at he
      | false =>
        simp [sniffGo, postLoop, hv] at he
        subst he
        simp [sniffGo, postLoop, hv, hn]
  | fuel+1, n, b, s, pre, hfn, hb, hp, he => by
    cases s with
    | nil =>
      rw [sniffGo_eof c v rl fuel n b (readAt_nil 0)] at he
      exact Option.noConfusion he
    | cons r s =>
      obtain ⟨hrerr, hrbyte⟩ := hp r (by simp)
      obtain ⟨val, hval⟩ := Option.isSome_iff_exists.mp hrbyte
      have hr : readAt (r :: s) 0 = ⟨some val, none⟩ := by
        rw [readAt_cons_zero]; cases r; simp_all
      have hptail : ∀ x ∈ s, x.err = none ∧ x.byte.isSome := by
        intro x hx
        exact hp x (by simp [hx])
      have hnlen : n < b.length := by omega
      by_cases hlf : val = 0x0a ∧ n < HeaderLen + 1
      · rw [sniffGo_lf c v rl fuel n b (hlf.1 ▸ hr) hlf.2] at he ⊢
        cases c with
        | true => simp at he
        | false =>
          simp only [if_neg (Bool.false_ne_true)] at he ⊢
          obtain rfl : (b.set n val).take (n+1) = pre := by
            rw [← hlf.1] at he
            exact Option.some.injEq _ _ ▸ he
          simp only [List.tail_cons]
          rw [take_set_succ b n val hnlen]
          simp only [streamBytes, List.filterMap_cons_some hval, hlf.1]
          simp [hlf.1]
      · rw [sniffGo_byte c v rl fuel n b hr hlf] at he ⊢
        simp only [List.tail_cons] at he ⊢
        have := enqueue_replay_exact c v rl fuel (n+1) (b.set n val) s pre
          (by omega) (by simp [hb]) hptail he
        rw [this, take_set_succ b n val hnlen]
        simp [streamBytes, List.filterMap_cons_some hval]

/-- The early-line-feed route with the close signal not fired: a plain
line feed at overall position `n + k` (before the last header byte)
enqueues the bytes read so far including the line feed. -/
theorem lf_route (v : List Nat → Bool) (rl : Int × Int × Option Err) :
    ∀ (k fuel n : Nat) (b : List Nat) (s : List ReadResult),
      fuel + n = HeaderLen + 2 → b.length = HeaderLen + 2 →
      (∀ i, i < k → ∃ val, readAt s i = ⟨some val, none⟩ ∧ val ≠ 0x0a) →
      readAt s k = ⟨some 0x0a, none⟩ → n + k < HeaderLen + 1 →
      sniffGo false v rl fuel n b s =
        { enqueued := some (b.take n ++ streamBytes (s.take k) ++ [0x0a]),
          connClosed := false, relayedKey := none, consumed := none,
          lookedUp := none, rest := s.drop (k+1) }
  | 0, fuel, n, b, s, hfn, hb, _, hlf, hn => by
    obtain ⟨fuel, rfl⟩ : ∃ f, fuel = f + 1 := ⟨fuel - 1, by omega⟩
    rw [sniffGo_lf false v rl fuel n b hlf (by omega)]
    simp only [if_neg (Bool.false_ne_true)]
    rw [take_set_succ b n 0x0a (by omega)]
    simp [streamBytes, List.drop_one]
  | k+1, fuel, n, b, s, hfn, hb, hpre, hlf, hn => by
    obtain ⟨fuel, rfl⟩ : ∃ f, fuel = f + 1 := ⟨fuel - 1, by omega⟩
    obtain ⟨val, hval, hvne⟩ := hpre 0 (Nat.succ_pos k)
    cases s with
    | nil =>
      rw [readAt_nil] at hval
      exact absurd (congrArg ReadResult.byte hval) (by simp)
    | cons r s =>
      rw [readAt_cons_zero] at hval
      subst hval
      have hr : readAt (⟨some val, none⟩ :: s) 0 = ⟨some val, none⟩ :=
        readAt_cons_zero _ _
      rw [sniffGo_byte false v rl fuel n b hr (fun hc => hvne hc.1)]
      simp only [List.tail_cons]
      rw [lf_route v rl k fuel (n+1) (b.set n val) s (by omega) (by simp [hb])
        (fun i hi => by
          have := hpre (i+1) (by omega)
          rwa [readAt_cons_succ] at this)
        (by rw [← readAt_cons_succ ⟨some val, none⟩ s k]; exact hlf)
        (by omega)]
      rw [take_set_succ b n val (by omega)]
      simp only [List.take_succ_cons, List.drop_succ_cons, streamBytes,
        List.filterMap_cons_some (show (⟨some val, none⟩ : ReadResult).byte
          = some val from rfl)]
      simp

/-- The transient-read-error route: a read failing with a non-`EOF`
error and no byte at overall position `n + k` enqueues the bytes read so
far plus the untouched buffer byte at the failing position — without
consulting the close signal. -/
theorem err_route (c : Bool) (v : List Nat → Bool) (rl : Int × Int × Option Err) :
    ∀ (k fuel n : Nat) (b : List Nat) (s : List ReadResult),
      fuel + n = HeaderLen + 2 → b.length = HeaderLen + 2 →
      (∀ i, i < k → ∃ val, readAt s i = ⟨some val, none⟩ ∧ val ≠ 0x0a) →
      readAt s k = ⟨none, some Err.other⟩ → n + k < HeaderLen + 2 →
      sniffGo c v rl fuel n b s =
        { enqueued := some (b.take n ++ streamBytes (s.take k) ++ [b.getD (n+k) 0]),
          connClosed := false, relayedKey := none, consumed := none,
          lookedUp := none, rest := s.drop (k+1) }
  | 0, fuel, n, b, s, hfn, hb, _, herr, hn => by
    obtain ⟨fuel, rfl⟩ : ∃ f, fuel = f + 1 := ⟨fuel - 1, by omega⟩
    rw [sniffGo_err c v rl fuel n b herr]
    rw [take_succ_getD b n (by omega)]
    simp [streamBytes, List.drop_one]
  | k+1, fuel, n, b, s, hfn, hb, hpre, herr, hn => by
    obtain ⟨fuel, rfl⟩ : ∃ f, fuel = f + 1 := ⟨fuel - 1, by omega⟩
    obtain ⟨val, hval, hvne⟩ := hpre 0 (Nat.succ_pos k)
    cases s with
    | nil =>
      rw [readAt_nil] at hval
      exact absurd (congrArg ReadResult.byte hval) (by simp)
    | cons r s =>
      rw [readAt_cons_zero] at hval
      subst hval
      have hr : readAt (⟨some val, none⟩ :: s) 0 = ⟨some val, none⟩ :=
        readAt_cons_zero _ _
      rw [sniffGo_byte c v rl fuel n b hr (fun hc => hvne hc.1)]
      simp only [List.tail_cons]
      rw [err_route c v rl k fuel (n+1) (b.set n val) s (by omega) (by simp [hb])
        (fun i hi => by
          have := hpre (i+1) (by omega)
          rwa [readAt_cons_succ] at this)
        (by rw [← readAt_cons_succ ⟨some val, none⟩ s k]; exact herr)
        (by omega)]
      rw [take_set_succ b n val (by omega)]
      rw [getD_set_ne b n (n+1+k) val 0 (by omega)]
      rw [(by omega : n + 1 + k = n + (k + 1))]
      simp only [List.take_succ_cons, List.drop_succ_cons, streamBytes,
        List.filterMap_cons_some (show (⟨some val, none⟩ : ReadResult).byte
          = some val from rfl)]
      simp

/-- The end-of-stream route: a read failing with `EOF` at overall
position `n + k` closes the connection, enqueues nothing, and never
reaches validation or relay. -/
theorem eof_route (c : Bool) (v : List Nat → Bool) (rl : Int × Int × Option Err) :
    ∀ (k fuel n : Nat) (b : List Nat) (s : List ReadResult) (ob : Option Nat),
      fuel + n = HeaderLen + 2 → b.length = HeaderLen + 2 →
      (∀ i, i < k → ∃ val, readAt s i = ⟨some val, none⟩ ∧ val ≠ 0x0a) →
      readAt s k = ⟨ob, some Err.eof⟩ → n + k < HeaderLen + 2 →
      sniffGo c v rl fuel n b s =
        { enqueued := none, connClosed := true, relayedKey := none,
          consumed := none, lookedUp := none, rest := s.drop (k+1) }
  | 0, fuel, n, b, s, ob, hfn, hb, _, herr, hn => by
    obtain ⟨fuel, rfl⟩ : ∃ f, fuel = f + 1 := ⟨fuel - 1, by omega⟩
    rw [sniffGo_eof c v rl fuel n b herr]
    simp [List.drop_one]
  | k+1, fuel, n, b, s, ob, hfn, hb, hpre, herr, hn => by
    obtain ⟨fuel, rfl⟩ : ∃ f, fuel = f + 1 := ⟨fuel - 1, by omega⟩
    obtain ⟨val, hval, hvne⟩ := hpre 0 (Nat.succ_pos k)
    cases s with
    | nil =>
      rw [readAt_nil] at hval
      exact absurd (congrArg ReadResult.byte hval) (by simp)
    | cons r s =>
      rw [readAt_cons_zero] at hval
      subst hval
      have hr : readAt (⟨some val, none⟩ :: s) 0 = ⟨some val, none⟩ :=
        readAt_cons_zero _ _
      rw [sniffGo_byte c v rl fuel n b hr (fun hc => hvne hc.1)]
      simp only [List.tail_cons, List.drop_succ_cons]
      exact eof_route c v rl k fuel (n+1) (b.set n val) s ob (by omega)
        (by simp [hb])
        (fun i hi => by
          have := hpre (i+1) (by omega)
          rwa [readAt_cons_succ] at this)
        (by rw [← readAt_cons_succ ⟨some val, none⟩ s k]; exact herr)
        (by omega)

/-- With the close signal fired, a goroutine whose reads never fail
enqueues nothing: every enqueue point other than the transient-error one
checks the signal and closes the connection instead. -/
theorem closed_no_enqueue (v : List Nat → Bool) (rl : Int × Int × Option Err) :
    ∀ (fuel n : Nat) (b : List Nat) (s : List ReadResult),
      (∀ i, i < fuel → (readAt s i).err = none) →
      (sniffGo true v rl fuel n b s).enqueued = none
  | 0, n, b, s, _ => by
    simp only [sniffGo, postLoop]
    split
    · rfl
    · simp
  | fuel+1, n, b, s, h => by
    have h0 := h 0 (Nat.succ_pos fuel)
    cases s with
    | nil => rw [readAt_nil] at h0; exact Option.noConfusion h0
    | cons r s =>
      rw [readAt_cons_zero] at h0
      have htail : ∀ i, i < fuel → (readAt s i).err = none := by
        intro i hi
        have := h (i+1) (by omega)
        rwa [readAt_cons_succ] at this
      cases hbyte : r.byte with
      | none =>
        have hr : readAt (r :: s) 0 = ⟨none, none⟩ := by
          rw [readAt_cons_zero]; cases r; simp_all
        rw [sniffGo_zero true v rl fuel n b hr]
        exact closed_no_enqueue v rl fuel (n+1) b (r :: s).tail htail
      | some val =>
        have hr : readAt (r :: s) 0 = ⟨some val, none⟩ := by
          rw [readAt_cons_zero]; cases r; simp_all
        by_cases hlf : val = 0x0a ∧ n < HeaderLen + 1
        · rw [sniffGo_lf true v rl fuel n b (hlf.1 ▸ hr) hlf.2]
          simp
        · rw [sniffGo_byte true v rl fuel n b hr hlf]
          exact closed_no_enqueue v rl fuel (n+1) (b.set n val) (r :: s).tail htail

/-- Whenever the goroutine enters the relay path, it consumes under the
relayed key exactly the byte counts the relay returned, closes the
connection, and enqueues nothing. -/
theorem relay_inv (c : Bool) (v : List Nat → Bool) (rl : Int × Int × Option Err) :
    ∀ (fuel n : Nat) (b : List Nat) (s : List ReadResult) (k : List Nat),
      (sniffGo c v rl fuel n b s).relayedKey = some k →
      (sniffGo c v rl fuel n b s).consumed = some (k, rl.1, rl.2.1) ∧
      (sniffGo c v rl fuel n b s).connClosed = true ∧
      (sniffGo c v rl fuel n b s).enqueued = none
  | 0, n, b, s, k, hk => by
    simp only [sniffGo, postLoop] at hk ⊢
    split at hk
    · obtain rfl : b.take HeaderLen = k := Option.some.injEq _ _ ▸ hk
      split
      · exact ⟨rfl, rfl, rfl⟩
      · simp_all
    · split at hk <;> exact Option.noConfusion hk
  | fuel+1, n, b, s, k, hk => by
    rcases hr : readAt s 0 with ⟨ob, oe⟩
    cases oe with
    | none =>
      cases ob with
      | none =>
        rw [sniffGo_zero c v rl fuel n b hr] at hk ⊢
        exact relay_inv c v rl fuel (n+1) b s.tail k hk
      | some val =>
        by_cases hlf : val = 0x0a ∧ n < HeaderLen + 1
        · rw [sniffGo_lf c v rl fuel n b (hlf.1 ▸ hr) hlf.2] at hk ⊢
          cases c with
          | true => simp at hk
          | false => simp at hk
        · rw [sniffGo_byte c v rl fuel n b hr hlf] at hk ⊢
          exact relay_inv c v rl fuel (n+1) (b.set n val) s.tail k hk
    | some e =>
      cases e with
      | eof =>
        rw [sniffGo_eof c v rl fuel n b hr] at hk
        exact Option.noConfusion hk
      | other =>
        cases ob with
        | none =>
          rw [sniffGo_err c v rl fuel n b hr] at hk
          exact Option.noConfusion hk
        | some val =>
          have : sniffGo c v rl (fuel+1) n b s =
              { enqueued := some ((b.set n val).take (n+1)), connClosed := false,
                relayedKey := none, consumed := none, lookedUp := none,
                rest := s.tail } := by
            simp [sniffGo, hr]
          rw [this] at hk
          exact Option.noConfusion hk

/-- A run whose first `HeaderLen + 2` reads neither fail nor hit an early
line feed completes the loop and reaches the validation code with the
buffer the reads produced. -/
theorem full_run (c : Bool) (v : List Nat → Bool) (rl : Int × Int × Option Err)
    (s : List ReadResult)
    (herr : ∀ i, i < HeaderLen + 2 → (readAt s i).err = none)
    (hnoLF : ∀ i, i < HeaderLen + 1 → (readAt s i).byte ≠ some 0x0a) :
    handleConn c v rl s =
      postLoop c v rl
        (fillBuf (List.replicate (HeaderLen + 2) 0) 0 (s.take (HeaderLen + 2)))
        (s.drop (HeaderLen + 2)) := by
  unfold handleConn
  rw [sniffGo_walk c v rl (HeaderLen + 2) (HeaderLen + 2) 0
    (List.replicate (HeaderLen + 2) 0) s (Nat.le_refl _)
    (fun i hi => ⟨herr i hi, fun hc => by
      have hi57 : i < HeaderLen + 1 := by omega
      exact hnoLF i hi57 hc.1⟩)]
  rw [Nat.sub_self]
  rfl

/-- When moreover every read delivers exactly one byte, the buffer at
validation is precisely the first `HeaderLen + 2` stream bytes. -/
theorem full_run_plain (c : Bool) (v : List Nat → Bool) (rl : Int × Int × Option Err)
    (s : List ReadResult)
    (hplain : ∀ i, i < HeaderLen + 2 → ∃ val, readAt s i = ⟨some val, none⟩)
    (hnoLF : ∀ i, i < HeaderLen + 1 → (readAt s i).byte ≠ some 0x0a) :
    handleConn c v rl s =
      postLoop c v rl (streamBytes (s.take (HeaderLen + 2)))
        (s.drop (HeaderLen + 2)) := by
  have herr : ∀ i, i < HeaderLen + 2 → (readAt s i).err = none := by
    intro i hi
    obtain ⟨val, hval⟩ := hplain i hi
    rw [hval]
  have hlen : HeaderLen + 2 ≤ s.length := readAt_err_none_length herr
  have htlen : (s.take (HeaderLen + 2)).length = HeaderLen + 2 :=
    List.length_take_of_le hlen
  rw [full_run c v rl s herr hnoLF]
  congr 1
  rw [fillBuf_plain (s.take (HeaderLen + 2)) (List.replicate (HeaderLen + 2) 0) 0
    (fun r hr => by
      obtain ⟨i, hi, rfl⟩ := List.mem_iff_getElem.mp hr
      have hi2 : i < HeaderLen + 2 := by
        rw [htlen] at hi
        exact hi
      obtain ⟨val, hval⟩ := hplain i hi2
      rw [List.getElem_take]
      rw [← readAt_eq_getElem s i (by omega), hval]
      rfl)
    (by simp [htlen])]
  simp [htlen, streamBytes]

theorem postLoop_lookedUp (c : Bool) (v : List Nat → Bool)
    (rl : Int × Int × Option Err) (b : List Nat) (s : List ReadResult) :
    (postLoop c v rl b s).lookedUp = some (b.take HeaderLen) := by
  unfold postLoop
  split
  · rfl
  · split <;> rfl

theorem postLoop_rest (c : Bool) (v : List Nat → Bool)
    (rl : Int × Int × Option Err) (b : List Nat) (s : List ReadResult) :
    (postLoop c v rl b s).rest = s := by
  unfold postLoop
  split
  · rfl
  · split <;> rfl

theorem postLoop_valid (c : Bool) (v : List Nat → Bool)
    (rl : Int × Int × Option Err) (b : List Nat) (s : List ReadResult)
    (h : v (b.take HeaderLen) = true) :
    postLoop c v rl b s =
      { enqueued := none, connClosed := true,
        relayedKey := some (b.take HeaderLen),
        consumed := some (b.take HeaderLen, rl.1, rl.2.1),
        lookedUp := some (b.take HeaderLen), rest := s } := by
  unfold postLoop
  rw [if_pos h]

theorem postLoop_invalid_open (v : List Nat → Bool)
    (rl : Int × Int × Option Err) (b : List Nat) (s : List ReadResult)
    (h : v (b.take HeaderLen) = false) :
    postLoop false v rl b s =
      { enqueued := some b, connClosed := false, relayedKey := none,
        consumed := none, lookedUp := some (b.take HeaderLen), rest := s } := by
  unfold postLoop
  rw [if_neg (by rw [h]; exact Bool.false_ne_true)]
  rfl

theorem postLoop_invalid_closed (v : List Nat → Bool)
    (rl : Int × Int × Option Err) (b : List Nat) (s : List ReadResult)
    (h : v (b.take HeaderLen) = false) :
    postLoop true v rl b s =
      { enqueued := none, connClosed := true, relayedKey := none,
        consumed := none, lookedUp := some (b.take HeaderLen), rest := s } := by
  unfold postLoop
  rw [if_neg (by rw [h]; exact Bool.false_ne_true)]
  rfl

theorem plain_of_bytes (s : List ReadResult) (m : Nat)
    (h : ∀ i, i < m → (readAt s i).byte.isSome ∧ (readAt s i).err = none) :
    ∀ i, i < m → ∃ val, readAt s i = ⟨some val, none⟩ := by
  intro i hi
  obtain ⟨hb, he⟩ := h i hi
  obtain ⟨val, hval⟩ := Option.isSome_iff_exists.mp hb
  refine ⟨val, ?_⟩
  cases hr : readAt s i with
  | mk ob oe =>
    rw [hr] at hval he
    simp_all

/-- Once the scan is past a buffer position `j` that holds 0, it never
writes `j` again: every slice later enqueued for a rewind covers `j` and
carries 0 there, and a later ledger lookup key carries 0 at `j` whenever
`j` is a key position — whatever the remaining reads do. -/
theorem placeholder_persists (c : Bool) (v : List Nat → Bool)
    (rl : Int × Int × Option Err) :
    ∀ (fuel n : Nat) (b : List Nat) (s : List ReadResult) (j : Nat),
      j < n → fuel + n = HeaderLen + 2 → b.length = HeaderLen + 2 →
      b.getD j 0 = 0 →
      (∀ P, (sniffGo c v rl fuel n b s).enqueued = some P →
        j < P.length ∧ P.getD j 0 = 0) ∧
      (∀ K, (sniffGo c v rl fuel n b s).lookedUp = some K →
        j < HeaderLen → K.getD j 0 = 0)
  | 0, n, b, s, j, hj, hfn, hb, h0 => by
    have hpost : sniffGo c v rl 0 n b s = postLoop c v rl b s := rfl
    cases hv : v (b.take HeaderLen) with
    | true =>
      rw [hpost, postLoop_valid c v rl b s hv]
      constructor
      · intro P hP
        exact Option.noConfusion hP
      · intro K hK hjL
        simp only [Option.some.injEq] at hK
        subst hK
        rw [getD_take_lt b HeaderLen j 0 hjL]
        exact h0
    | false =>
      cases c with
      | true =>
        rw [hpost, postLoop_invalid_closed v rl b s hv]
        constructor
        · intro P hP
          exact Option.noConfusion hP
        · intro K hK hjL
          simp only [Option.some.injEq] at hK
          subst hK
          rw [getD_take_lt b HeaderLen j 0 hjL]
          exact h0
      | false =>
        rw [hpost, postLoop_invalid_open v rl b s hv]
        constructor
        · intro P hP
          simp only [Option.some.injEq] at hP
          subst hP
          exact ⟨by rw [hb]; omega, h0⟩
        · intro K hK hjL
          simp only [Option.some.injEq] at hK
          subst hK
          rw [getD_take_lt b HeaderLen j 0 hjL]
          exact h0
  | fuel+1, n, b, s, j, hj, hfn, hb, h0 => by
    rcases hr : readAt s 0 with ⟨ob, oe⟩
    cases oe with
    | none =>
      cases ob with
      | none =>
        rw [sniffGo_zero c v rl fuel n b hr]
        exact placeholder_persists c v rl fuel (n+1) b s.tail j
          (by omega) (by omega) hb h0
      | some val =>
        by_cases hlf : val = 0x0a ∧ n < HeaderLen + 1
        · cases c with
          | true =>
            have heq : sniffGo true v rl (fuel+1) n b s =
                { enqueued := none, connClosed := true, relayedKey := none,
                  consumed := none, lookedUp := none, rest := s.tail } := by
              rw [sniffGo_lf true v rl fuel n b (hlf.1 ▸ hr) hlf.2]
              exact if_pos rfl
            rw [heq]
            exact ⟨fun P hP => Option.noConfusion hP,
              fun K hK _ => Option.noConfusion hK⟩
          | false =>
            have heq : sniffGo false v rl (fuel+1) n b s =
                { enqueued := some ((b.set n 0x0a).take (n+1)), connClosed := false,
                  relayedKey := none, consumed := none, lookedUp := none,
                  rest := s.tail } := by
              rw [sniffGo_lf false v rl fuel n b (hlf.1 ▸ hr) hlf.2]
              exact if_neg Bool.false_ne_true
            rw [heq]
            constructor
            · intro P hP
              simp only [Option.some.injEq] at hP
              subst hP
              constructor
              · rw [List.length_take, List.length_set, hb]
                omega
              · rw [getD_take_lt (b.set n 0x0a) (n+1) j 0 (by omega),
                    getD_set_ne b n j 0x0a 0 (by omega)]
                exact h0
            · intro K hK _
              exact Option.noConfusion hK
        · rw [sniffGo_byte c v rl fuel n b hr hlf]
          refine placeholder_persists c v rl fuel (n+1) (b.set n val) s.tail j
            (by omega) (by omega) (by rw [List.length_set]; exact hb) ?_
          rw [getD_set_ne b n j val 0 (by omega)]
          exact h0
    | some e =>
      cases e with
      | eof =>
        rw [sniffGo_eof c v rl fuel n b hr]
        exact ⟨fun P hP => Option.noConfusion hP,
          fun K hK _ => Option.noConfusion hK⟩
      | other =>
        cases ob with
        | none =>
          rw [sniffGo_err c v rl fuel n b hr]
          constructor
          · intro P hP
            simp only [Option.some.injEq] at hP
            subst hP
            constructor
            · rw [List.length_take, hb]
              omega
            · rw [getD_take_lt b (n+1) j 0 (by omega)]
              exact h0
          · intro K hK _
            exact Option.noConfusion hK
        | some val =>
          have heq : sniffGo c v rl (fuel+1) n b s =
              { enqueued := some ((b.set n val).take (n+1)), connClosed := false,
                relayedKey := none, consumed := none, lookedUp := none,
                rest := s.tail } := by
            simp [sniffGo, hr]
          rw [heq]
          constructor
          · intro P hP
            simp only [Option.some.injEq] at hP
            subst hP
            constructor
            · rw [List.length_take, List.length_set, hb]
              omega
            · rw [getD_take_lt (b.set n val) (n+1) j 0 (by omega),
                  getD_set_ne b n j val 0 (by omega)]
              exact h0
          · intro K hK _
            exact Option.noConfusion hK

/-! ## Claims -/

/-- C1 (counterexample): a transient read error at position 0 enqueues
the one-byte slice `[0x00]` although no byte was consumed from the
connection, so the fallback consumer observes a stream that is not
byte-identical to the original. -/
theorem trojan_c1_cex :
    (handleConn false (fun _ => false) (0, 0, none)
      [⟨none, some Err.other⟩]).enqueued = some [0] ∧
    fallbackObserves [0]
      (handleConn false (fun _ => false) (0, 0, none)
        [⟨none, some Err.other⟩]).rest ≠
      streamBytes [⟨none, some Err.other⟩] := by
  exact ⟨rfl, by decide⟩

/-- C1 (amended): provided every read of the trace delivers exactly one
byte with no error, any slice the sniffer enqueues for the fallback path,
replayed ahead of the unread remainder, reconstructs the original stream
byte-for-byte; and a line feed first occurring at header position
`k < HeaderLen + 1` is rewound with exactly the `k + 1` consumed bytes. -/
theorem trojan_c1_fallback_replay (v : List Nat → Bool)
    (rl : Int × Int × Option Err) (s : List ReadResult)
    (hplain : ∀ r ∈ s, r.err = none ∧ r.byte.isSome) :
    (∀ pre, (handleConn false v rl s).enqueued = some pre →
      fallbackObserves pre (handleConn false v rl s).rest = streamBytes s) ∧
    (∀ k, k < HeaderLen + 1 → (readAt s k).byte = some 0x0a →
      (∀ i, i < k → (readAt s i).byte ≠ some 0x0a) →
      (handleConn false v rl s).enqueued = some (streamBytes (s.take (k+1))) ∧
      (streamBytes (s.take (k+1))).length = k + 1) := by
  constructor
  · intro pre he
    have h := enqueue_replay_exact false v rl (HeaderLen + 2) 0
      (List.replicate (HeaderLen + 2) 0) s pre rfl (by simp) hplain he
    unfold fallbackObserves
    simpa using h
  · intro k hk hlf hfirst
    have hklen : k < s.length := readAt_byte_some_lt hlf
    have hlf' : readAt s k = ⟨some 0x0a, none⟩ := by
      have hmem := hplain (readAt s k) (readAt_mem s k hklen)
      cases hr : readAt s k with
      | mk ob oe =>
        rw [hr] at hmem hlf
        cases oe with
        | none => simp_all
        | some e => exact absurd hmem.1 (by simp)
    have hpre : ∀ i, i < k → ∃ val, readAt s i = ⟨some val, none⟩ ∧ val ≠ 0x0a := by
      intro i hi
      have hmem := hplain (readAt s i) (readAt_mem s i (by omega))
      obtain ⟨val, hval⟩ := Option.isSome_iff_exists.mp hmem.2
      refine ⟨val, ?_, ?_⟩
      · cases hr : readAt s i with
        | mk ob oe =>
          rw [hr] at hmem hval
          cases oe with
          | none => simp_all
          | some e => exact absurd hmem.1 (by simp)
      · intro hvala
        exact hfirst i hi (by rw [hval, hvala])
    have hroute := lf_route v rl k (HeaderLen + 2) 0
      (List.replicate (HeaderLen + 2) 0) s rfl (by simp) hpre hlf' (by omega)
    have htake : s.take (k+1) = s.take k ++ [s[k]] := by
      rw [List.take_succ, List.getElem?_eq_getElem hklen]
      rfl
    have hbytes : streamBytes (s.take (k+1)) = streamBytes (s.take k) ++ [0x0a] := by
      rw [htake]
      unfold streamBytes
      rw [List.filterMap_append]
      have : s[k].byte = some 0x0a := by
        rw [← readAt_eq_getElem s k hklen, hlf']
      simp [this]
    constructor
    · unfold handleConn
      rw [hroute, hbytes]
      simp
    · rw [hbytes, List.length_append]
      have : (streamBytes (s.take k)).length = k :=
        plain_take_length k s (fun i hi => by
          obtain ⟨val, hval, _⟩ := hpre i hi
          rw [hval]
          rfl)
      simp [this]

/-- C1 (witness). -/
theorem trojan_c1_witness :
    (handleConn false (fun _ => false) (0, 0, none)
      [⟨some 0x0a, none⟩]).enqueued = some [0x0a] := by
  have h := trojan_c1_fallback_replay (fun _ => false) (0, 0, none)
    [⟨some 0x0a, none⟩] (by decide)
  have h2 := (h.2 0 (by decide) (by decide) (fun i hi => absurd hi (by omega))).1
  exact h2

/-- C3 (counterexample): a non-EOF read error at position 1 (after one
consumed byte 0x42) rewinds two bytes `[0x42, 0x00]`, not the one byte
actually consumed: the claimed "exactly the n bytes successfully
consumed" is off by the phantom trailing zero byte. -/
theorem trojan_c3_cex :
    (handleConn false (fun _ => false) (0, 0, none)
      [⟨some 0x42, none⟩, ⟨none, some Err.other⟩]).enqueued = some [0x42, 0] ∧
    ([0x42, 0] : List Nat) ≠
      streamBytes [⟨some 0x42, none⟩, ⟨none, some Err.other⟩] := by
  exact ⟨rfl, by decide⟩

/-- C3 (amended): a read failing with a non-EOF error at header position
`k` (returning no byte), after `k` one-byte reads, enqueues the rewound
connection carrying the `k` consumed bytes plus one untouched zero buffer
byte at the failing position — `k + 1` bytes in total — and does so
without closing the connection and regardless of the close signal. -/
theorem trojan_c3_err_rewind (c : Bool) (v : List Nat → Bool)
    (rl : Int × Int × Option Err) (s : List ReadResult) (k : Nat)
    (hpre : ∀ i, i < k → ∃ val, readAt s i = ⟨some val, none⟩ ∧ val ≠ 0x0a)
    (herr : readAt s k = ⟨none, some Err.other⟩)
    (hk : k < HeaderLen + 2) :
    (handleConn c v rl s).enqueued = some (streamBytes (s.take k) ++ [0]) ∧
    (streamBytes (s.take k)).length = k ∧
    (handleConn c v rl s).connClosed = false := by
  unfold handleConn
  rw [err_route c v rl k (HeaderLen + 2) 0 (List.replicate (HeaderLen + 2) 0) s
    rfl (by simp) hpre herr (by omega)]
  refine ⟨?_, ?_, rfl⟩
  · simp [List.getD_eq_getElem?_getD, List.getElem?_replicate_of_lt hk]
  · exact plain_take_length k s (fun i hi => by
      obtain ⟨val, hval, _⟩ := hpre i hi
      rw [hval]
      rfl)

/-- C3 (witness). -/
theorem trojan_c3_witness :
    (handleConn true (fun _ => false) (0, 0, none)
      [⟨some 0x47, none⟩, ⟨none, some Err.other⟩]).enqueued =
        some (streamBytes ([⟨some 0x47, none⟩,
          ⟨none, some Err.other⟩].take 1) ++ [0]) := by
  have h := trojan_c3_err_rewind true (fun _ => false) (0, 0, none)
    [⟨some 0x47, none⟩, ⟨none, some Err.other⟩] 1
    (fun i hi => by
      interval_cases i
      exact ⟨0x47, rfl, by decide⟩)
    rfl (by omega)
  exact h.1

/-- C5 (confirmed): whenever the goroutine enters the relay path on a
validated key, it reports to the ledger exactly the `(nr, nw)` counts the
relay returned — whether or not the relay also returned an error — under
that same key, closes the connection, and never enqueues it for the
fallback path. -/
theorem trojan_c5_relay_consume (c : Bool) (v : List Nat → Bool)
    (rl : Int × Int × Option Err) (s : List ReadResult) (k : List Nat)
    (h : (handleConn c v rl s).relayedKey = some k) :
    (handleConn c v rl s).consumed = some (k, rl.1, rl.2.1) ∧
    (handleConn c v rl s).connClosed = true ∧
    (handleConn c v rl s).enqueued = none :=
  relay_inv c v rl (HeaderLen + 2) 0 (List.replicate (HeaderLen + 2) 0) s k h

/-- C5 (witness): a full header of 0x61 bytes, a ledger accepting
everything, and a relay returning `(5, 7)` with an error. -/
theorem trojan_c5_witness :
    (handleConn false (fun _ => true) (5, 7, some Err.other)
      (List.replicate 58 ⟨some 0x61, none⟩)).consumed =
        some (List.replicate 56 0x61, 5, 7) := by
  have h := trojan_c5_relay_consume false (fun _ => true) (5, 7, some Err.other)
    (List.replicate 58 ⟨some 0x61, none⟩) (List.replicate 56 0x61) (by decide)
  exact h.1

/-- C6 (confirmed): a read failing with end-of-stream at any header
position abandons the connection — it is closed, nothing is enqueued,
and neither validation, relay nor consume is reached. -/
theorem trojan_c6_eof_abandon (c : Bool) (v : List Nat → Bool)
    (rl : Int × Int × Option Err) (s : List ReadResult) (k : Nat) (ob : Option Nat)
    (hpre : ∀ i, i < k → ∃ val, readAt s i = ⟨some val, none⟩ ∧ val ≠ 0x0a)
    (heof : readAt s k = ⟨ob, some Err.eof⟩)
    (hk : k < HeaderLen + 2) :
    (handleConn c v rl s).enqueued = none ∧
    (handleConn c v rl s).connClosed = true ∧
    (handleConn c v rl s).relayedKey = none ∧
    (handleConn c v rl s).consumed = none ∧
    (handleConn c v rl s).lookedUp = none := by
  unfold handleConn
  rw [eof_route c v rl k (HeaderLen + 2) 0 (List.replicate (HeaderLen + 2) 0) s ob
    rfl (by simp) hpre heof (by omega)]
  exact ⟨rfl, rfl, rfl, rfl, rfl⟩

/-- C6 (witness). -/
theorem trojan_c6_witness :
    (handleConn false (fun _ => false) (0, 0, none)
      [⟨some 0x47, none⟩, ⟨none, some Err.eof⟩]).enqueued = none ∧
    (handleConn false (fun _ => false) (0, 0, none)
      [⟨some 0x47, none⟩, ⟨none, some Err.eof⟩]).connClosed = true := by
  have h := trojan_c6_eof_abandon false (fun _ => false) (0, 0, none)
    [⟨some 0x47, none⟩, ⟨none, some Err.eof⟩] 1 none
    (fun i hi => by
      interval_cases i
      exact ⟨0x47, rfl, by decide⟩)
    rfl (by omega)
  exact ⟨h.1, h.2.1⟩

/-- C7 (counterexample): with the close signal fired, a connection whose
second read fails with a transient error still enqueues a rewound
connection onto the queue — the transient-error enqueue point does not
consult the close signal. -/
theorem trojan_c7_cex :
    (handleConn true (fun _ => false) (0, 0, none)
      [⟨some 0x41, none⟩, ⟨none, some Err.other⟩]).enqueued = some [0x41, 0] ∧
    some [0x41, 0] ≠ (none : Option (List Nat)) := by
  exact ⟨rfl, by decide⟩

/-- C7 (amended): after the close signal has fired, a connection whose
header reads never fail enqueues nothing — the early-line-feed and
key-not-found enqueue points check the signal and close the raw
connection instead; only the transient-read-error path enqueues
regardless. -/
theorem trojan_c7_closed_no_enqueue (v : List Nat → Bool)
    (rl : Int × Int × Option Err) (s : List ReadResult)
    (herr : ∀ i, i < HeaderLen + 2 → (readAt s i).err = none) :
    (handleConn true v rl s).enqueued = none :=
  closed_no_enqueue v rl (HeaderLen + 2) 0 (List.replicate (HeaderLen + 2) 0) s
    herr

/-- C7 (witness): closed listener, an immediate line feed — the
connection is dropped, not enqueued. -/
theorem trojan_c7_witness :
    (handleConn true (fun _ => false) (0, 0, none)
      (List.replicate 58 ⟨some 0x0a, none⟩)).enqueued = none := by
  exact trojan_c7_closed_no_enqueue (fun _ => false) (0, 0, none)
    (List.replicate 58 ⟨some 0x0a, none⟩) (by decide)

/-- C2 (counterexample): 56 bytes of a ledger-validated key followed by
a line feed (not CR) in the first CRLF slot is routed to the fallback
path, not handled as a post-validation decode error: the loop's
line-feed check also fires at position `HeaderLen`. -/
theorem trojan_c2_cex :
    (fun key => key == List.replicate 56 0x61)
      (streamBytes ((List.replicate 56 ⟨some 0x61, none⟩ ++
        [⟨some 0x0a, none⟩, ⟨some 0x42, none⟩] : List ReadResult).take
          HeaderLen)) = true ∧
    streamBytes ((List.replicate 56 ⟨some 0x61, none⟩ ++
      [⟨some 0x0a, none⟩, ⟨some 0x42, none⟩] : List ReadResult).drop
        HeaderLen) ≠ [0x0d, 0x0a] ∧
    (handleConn false (fun key => key == List.replicate 56 0x61) (0, 0, none)
      (List.replicate 56 ⟨some 0x61, none⟩ ++
        [⟨some 0x0a, none⟩, ⟨some 0x42, none⟩] : List ReadResult)).relayedKey =
      none ∧
    (handleConn false (fun key => key == List.replicate 56 0x61) (0, 0, none)
      (List.replicate 56 ⟨some 0x61, none⟩ ++
        [⟨some 0x0a, none⟩, ⟨some 0x42, none⟩] : List ReadResult)).enqueued =
      some (List.replicate 56 0x61 ++ [0x0a]) := by
  exact ⟨by decide, by decide, by decide, by decide⟩

/-- C2 (amended): a connection delivering one byte per read whose first
`HeaderLen` bytes carry no line feed and form a ledger-validated key, and
whose byte at position `HeaderLen` is not a line feed, is routed to the
relay path and closed after the relay attempt — never to the fallback
path — regardless of what the two bytes in the CRLF slots are (they are
discarded unchecked, so a non-CRLF pair is not detected here) and
regardless of the close signal. -/
theorem trojan_c2_nonCRLF_relay (c : Bool) (v : List Nat → Bool)
    (rl : Int × Int × Option Err) (s : List ReadResult)
    (hplain : ∀ i, i < HeaderLen + 2 → ∃ val, readAt s i = ⟨some val, none⟩)
    (hnoLF : ∀ i, i < HeaderLen + 1 → (readAt s i).byte ≠ some 0x0a)
    (hv : v (streamBytes (s.take HeaderLen)) = true) :
    (handleConn c v rl s).relayedKey = some (streamBytes (s.take HeaderLen)) ∧
    (handleConn c v rl s).enqueued = none ∧
    (handleConn c v rl s).connClosed = true ∧
    (handleConn c v rl s).consumed =
      some (streamBytes (s.take HeaderLen), rl.1, rl.2.1) := by
  have hsome : ∀ i, i < HeaderLen + 2 → (readAt s i).byte.isSome := by
    intro i hi
    obtain ⟨val, hval⟩ := hplain i hi
    rw [hval]
    rfl
  have hkey : (streamBytes (s.take (HeaderLen + 2))).take HeaderLen =
      streamBytes (s.take HeaderLen) :=
    plain_streamBytes_take HeaderLen (HeaderLen + 2) s
      (fun i hi => hsome i (by omega)) (by omega)
  rw [full_run_plain c v rl s hplain hnoLF,
      postLoop_valid c v rl _ _ (by rw [hkey]; exact hv), hkey]
  exact ⟨rfl, rfl, rfl, rfl⟩

/-- C2 (witness): a validated key followed by two junk bytes `0x41 0x42`
in the CRLF slots still relays. -/
theorem trojan_c2_witness :
    (handleConn false (fun key => key == List.replicate 56 0x61) (3, 4, none)
      (List.replicate 56 ⟨some 0x61, none⟩ ++
        [⟨some 0x41, none⟩, ⟨some 0x42, none⟩] : List ReadResult)).relayedKey =
      some (streamBytes ((List.replicate 56 ⟨some 0x61, none⟩ ++
        [⟨some 0x41, none⟩, ⟨some 0x42, none⟩] : List ReadResult).take
          HeaderLen)) := by
  have h := trojan_c2_nonCRLF_relay false
    (fun key => key == List.replicate 56 0x61) (3, 4, none)
    (List.replicate 56 ⟨some 0x61, none⟩ ++
      [⟨some 0x41, none⟩, ⟨some 0x42, none⟩] : List ReadResult)
    (plain_of_bytes _ (HeaderLen + 2) (by decide)) (by decide) (by decide)
  exact h.1

/-- C4 (counterexample): with a zero-byte read at position 0 followed by
57 one-byte reads and no validated key, the sniffer enqueues the 58
buffer bytes although only 57 bytes were read, and the fallback consumer
observes a stream with a phantom leading zero byte — not the untouched
original stream. -/
theorem trojan_c4_cex :
    (handleConn false (fun _ => false) (0, 0, none)
      (⟨none, none⟩ :: List.replicate 57 ⟨some 0x41, none⟩)).enqueued =
      some (0 :: List.replicate 57 0x41) ∧
    fallbackObserves (0 :: List.replicate 57 0x41)
      (handleConn false (fun _ => false) (0, 0, none)
        (⟨none, none⟩ :: List.replicate 57 ⟨some 0x41, none⟩)).rest ≠
      streamBytes (⟨none, none⟩ :: List.replicate 57 ⟨some 0x41, none⟩) := by
  exact ⟨by decide, by decide⟩

/-- C4 (amended): a connection delivering one byte per read, with no
line feed among the first `HeaderLen + 1` bytes and whose first
`HeaderLen` bytes are not a ledger key, is enqueued for the fallback path
(close signal not fired) rewinding exactly the `HeaderLen + 2` consumed
bytes, so the fallback consumer observes the untouched original stream. -/
theorem trojan_c4_notfound_fallback (v : List Nat → Bool)
    (rl : Int × Int × Option Err) (s : List ReadResult)
    (hplain : ∀ i, i < HeaderLen + 2 → ∃ val, readAt s i = ⟨some val, none⟩)
    (hnoLF : ∀ i, i < HeaderLen + 1 → (readAt s i).byte ≠ some 0x0a)
    (hv : v (streamBytes (s.take HeaderLen)) = false) :
    (handleConn false v rl s).enqueued =
      some (streamBytes (s.take (HeaderLen + 2))) ∧
    (streamBytes (s.take (HeaderLen + 2))).length = HeaderLen + 2 ∧
    fallbackObserves (streamBytes (s.take (HeaderLen + 2)))
      (handleConn false v rl s).rest = streamBytes s ∧
    (handleConn false v rl s).connClosed = false := by
  have hsome : ∀ i, i < HeaderLen + 2 → (readAt s i).byte.isSome := by
    intro i hi
    obtain ⟨val, hval⟩ := hplain i hi
    rw [hval]
    rfl
  have hkey : (streamBytes (s.take (HeaderLen + 2))).take HeaderLen =
      streamBytes (s.take HeaderLen) :=
    plain_streamBytes_take HeaderLen (HeaderLen + 2) s
      (fun i hi => hsome i (by omega)) (by omega)
  rw [full_run_plain false v rl s hplain hnoLF,
      postLoop_invalid_open v rl _ _ (by rw [hkey]; exact hv)]
  refine ⟨rfl, plain_take_length (HeaderLen + 2) s hsome, ?_, rfl⟩
  unfold fallbackObserves streamBytes
  rw [← List.filterMap_append, List.take_append_drop]

/-- C4 (witness): 58 bytes of 0x42, key not in the ledger. -/
theorem trojan_c4_witness :
    (handleConn false (fun _ => false) (0, 0, none)
      (List.replicate 58 ⟨some 0x42, none⟩)).enqueued =
      some (streamBytes ((List.replicate 58
        (⟨some 0x42, none⟩ : ReadResult)).take (HeaderLen + 2))) := by
  have h := trojan_c4_notfound_fallback (fun _ => false) (0, 0, none)
    (List.replicate 58 ⟨some 0x42, none⟩)
    (plain_of_bytes _ (HeaderLen + 2) (by decide)) (by decide) (by decide)
  exact h.1

/-- C10 (confirmed): a read returning zero bytes with a nil error at any
header position `j` does not stall or repeat the scan: the loop consumes
exactly that one read event and advances to position `j + 1` leaving
position `j` of the buffer untouched at its zero value.  That 0x00 then
participates as if it had been received: every byte slice later enqueued
for a rewind covers position `j` and replays 0x00 there, any ledger
lookup performed later carries 0x00 at key position `j`, and when the
header completes cleanly the looked-up key holds each read's delivered
byte (or 0) per position, with all `HeaderLen + 2` reads consumed exactly
once. -/
theorem trojan_c10_zero_read (c : Bool) (v : List Nat → Bool)
    (rl : Int × Int × Option Err) (s : List ReadResult) (j : Nat)
    (hj : j < HeaderLen + 2)
    (hpre : ∀ i, i < j → (readAt s i).err = none ∧
      ¬((readAt s i).byte = some 0x0a ∧ i < HeaderLen + 1))
    (hzero : readAt s j = ⟨none, none⟩) :
    (handleConn c v rl s =
      sniffGo c v rl (HeaderLen + 2 - (j + 1)) (j + 1)
        (fillBuf (List.replicate (HeaderLen + 2) 0) 0 (s.take j))
        (s.drop (j + 1)) ∧
      (fillBuf (List.replicate (HeaderLen + 2) 0) 0 (s.take j)).getD j 0 = 0) ∧
    (∀ P, (handleConn c v rl s).enqueued = some P →
      j < P.length ∧ P.getD j 0 = 0) ∧
    (∀ K, (handleConn c v rl s).lookedUp = some K → j < HeaderLen →
      K.getD j 0 = 0) ∧
    ((∀ i, i < HeaderLen + 2 → (readAt s i).err = none) →
      (∀ i, i < HeaderLen + 1 → (readAt s i).byte ≠ some 0x0a) →
      ∃ K, (handleConn c v rl s).lookedUp = some K ∧ K.length = HeaderLen ∧
        (∀ i, i < HeaderLen → K.getD i 0 = ((readAt s i).byte).getD 0) ∧
        (handleConn c v rl s).rest = s.drop (HeaderLen + 2)) := by
  have hbuf0 : (fillBuf (List.replicate (HeaderLen + 2) 0) 0 (s.take j)).getD j 0
      = 0 := by
    rw [fillBuf_getD_ge (s.take j) (List.replicate (HeaderLen + 2) 0) 0 j 0
      (by simp [List.length_take_le j s])]
    rw [getD_eq_getElem (List.replicate (HeaderLen + 2) 0) j 0 (by simpa using hj)]
    rw [List.getElem_replicate]
  have hA : handleConn c v rl s =
      sniffGo c v rl (HeaderLen + 2 - (j + 1)) (j + 1)
        (fillBuf (List.replicate (HeaderLen + 2) 0) 0 (s.take j))
        (s.drop (j + 1)) := by
    unfold handleConn
    rw [sniffGo_walk c v rl j (HeaderLen + 2) 0 (List.replicate (HeaderLen + 2) 0)
      s (by omega)
      (fun i hi => ⟨(hpre i hi).1, fun hc => (hpre i hi).2 ⟨hc.1, by omega⟩⟩)]
    rw [Nat.zero_add]
    rw [(by omega : HeaderLen + 2 - j = (HeaderLen + 2 - (j + 1)) + 1)]
    rw [sniffGo_zero c v rl (HeaderLen + 2 - (j + 1)) j
      (fillBuf (List.replicate (HeaderLen + 2) 0) 0 (s.take j))
      (by rw [readAt_drop]; simpa using hzero)]
    rw [List.tail_drop]
  have hpp := placeholder_persists c v rl (HeaderLen + 2 - (j + 1)) (j + 1)
    (fillBuf (List.replicate (HeaderLen + 2) 0) 0 (s.take j)) (s.drop (j + 1)) j
    (by omega) (by omega) (by rw [fillBuf_length]; simp) hbuf0
  refine ⟨⟨hA, hbuf0⟩, ?_, ?_, ?_⟩
  · intro P hP
    rw [hA] at hP
    exact hpp.1 P hP
  · intro K hK hjL
    rw [hA] at hK
    exact hpp.2 K hK hjL
  · intro herr hnoLF
    have hlen : HeaderLen + 2 ≤ s.length := readAt_err_none_length herr
    have htlen : (s.take (HeaderLen + 2)).length = HeaderLen + 2 :=
      List.length_take_of_le hlen
    rw [full_run c v rl s herr hnoLF]
    refine ⟨_, postLoop_lookedUp c v rl _ _, ?_, ?_, postLoop_rest c v rl _ _⟩
    · rw [List.length_take, fillBuf_length, List.length_replicate]
      omega
    · intro i hi
      rw [getD_take_lt _ HeaderLen i 0 hi]
      have hgd := fillBuf_getD (s.take (HeaderLen + 2))
        (List.replicate (HeaderLen + 2) 0) 0 i 0
        (by rw [htlen]; omega) (by simp)
      simp only [Nat.zero_add] at hgd
      rw [hgd]
      rw [getD_eq_getElem (s.take (HeaderLen + 2)) i ⟨none, none⟩
        (by rw [htlen]; omega)]
      rw [List.getElem_take]
      rw [← readAt_eq_getElem s i (by omega)]
      rw [getD_eq_getElem (List.replicate (HeaderLen + 2) 0) i 0 (by simp; omega)]
      rw [List.getElem_replicate]

/-- C10 (witness): one byte 0x42, a zero-byte read at position 1, then a
line feed: the enqueued rewind slice is `[0x42, 0x00, 0x0a]` — the 0x00
placeholder participates in the rewind as if received. -/
theorem trojan_c10_witness :
    (handleConn false (fun _ => false) (0, 0, none)
      [⟨some 0x42, none⟩, ⟨none, none⟩, ⟨some 0x0a, none⟩]).enqueued =
        some [0x42, 0, 0x0a] ∧
    (1 : Nat) < ([0x42, 0, 0x0a] : List Nat).length ∧
    ([0x42, 0, 0x0a] : List Nat).getD 1 0 = 0 := by
  have h := trojan_c10_zero_read false (fun _ => false) (0, 0, none)
    [⟨some 0x42, none⟩, ⟨none, none⟩, ⟨some 0x0a, none⟩] 1
    (by omega) (by decide) (by decide)
  have hb := h.2.1 [0x42, 0, 0x0a] (by decide)
  exact ⟨by decide, hb.1, hb.2⟩

/-- C8 (counterexample): with the close signal fired and a connection
already pending in the queue, `Accept` may return the pending connection
rather than the "listener closed" error — Go's `select` chooses among
ready cases at random, refuting "every subsequent call returns the
error". -/
theorem trojan_c8_cex :
    acceptL true [7] false = AcceptOut.gotConn 7 [] ∧
    AcceptOut.gotConn 7 [] ≠ AcceptOut.closedErr := by
  exact ⟨rfl, by decide⟩

/-- C8 (amended): `Close` is idempotent — it always returns nil and a
second call leaves the state unchanged; once the close signal has fired,
an `Accept` finding the queue empty (the blocked case) returns the
"listener closed" error, and an `Accept` finding a connection pending
returns either that connection or the error, depending on the select
choice. -/
theorem trojan_c8_close_accept :
    (∀ st : ListenerState, (closeL st).2 = none ∧
      closeL (closeL st).1 = ((closeL st).1, none)) ∧
    (∀ pick : Bool, acceptL true [] pick = AcceptOut.closedErr) ∧
    (∀ (cn : Nat) (q : List Nat) (pick : Bool),
      acceptL true (cn :: q) pick = AcceptOut.closedErr ∨
      acceptL true (cn :: q) pick = AcceptOut.gotConn cn q) := by
  refine ⟨?_, ?_, ?_⟩
  · intro st
    unfold closeL
    by_cases h : st.closed
    · simp [h]
    · simp [h]
  · intro pick
    rfl
  · intro cn q pick
    cases pick with
    | true => exact Or.inl rfl
    | false => exact Or.inr rfl

/-- C9 (confirmed): `Close` always returns nil, fires the wrapper's own
close signal, and leaves both the pending queue and the wrapped
underlying `net.Listener` untouched — in particular it never closes the
underlying listener. -/
theorem trojan_c9_close_frame (st : ListenerState) :
    (closeL st).2 = none ∧
    (closeL st).1.closed = true ∧
    (closeL st).1.underlyingClosed = st.underlyingClosed ∧
    (closeL st).1.queue = st.queue := by
  unfold closeL
  by_cases h : st.closed
  · simp [h]
  · simp [h]

end CaddyTrojan
